import Mathlib

/-
  Verification development for the warehouse management system (src/main.c).

  The C program keeps a binary search tree of categories (keyed by category
  name, compared with strcmp) where every category owns a singly linked list
  of products.  Here the linked list of `Product` nodes is embedded as
  `List Product` (head = most recently inserted node) and the category tree
  as the inductive `CategoryNode`.  In-place pointer mutation of a product
  found by `findProduct` is embedded as updating the first matching element
  of the list.  The `printf` reporting of each operation is embedded as an
  explicit outcome value: every distinct message the C code can print is one
  constructor, and the silent fall-through (no message printed, which is how
  the program signals "not found") is the `notFound` constructor.
  C `int` is embedded as `Int`; the C `double` average is embedded as an
  exact rational (`Option ℚ`, with `none` standing for the NaN produced by
  the 0.0/0 division on an empty collection; every comparison against NaN
  is false, which is what the `none` branches of `isLow`/`isHigh` return).
-/

/-- Embeds `struct Product` from main.c (the `next` pointer becomes the
list structure). -/
structure Product where
  productId : Int
  name : String
  quantity : Int
  category : String
deriving Repr, DecidableEq

/-- Embeds `findProduct` from main.c: linear scan returning the first
node whose `productId` matches. -/
def findProduct : List Product → Int → Option Product
  | [], _ => none
  | p :: rest, productId =>
      if p.productId = productId then some p else findProduct rest productId

/-- Helper for embedding `product->quantity = v` through the pointer that
`findProduct` returned: rebuild the product with the new quantity. -/
def withQuantity (p : Product) (v : Int) : Product :=
  ⟨p.productId, p.name, v, p.category⟩

/-- Embeds the in-place store `product->quantity = v` on the first product
of the list whose id matches; a list without a match is left unchanged. -/
def setFirstQuantity : List Product → Int → Int → List Product
  | [], _, _ => []
  | p :: rest, productId, v =>
      if p.productId = productId then withQuantity p v :: rest
      else p :: setFirstQuantity rest productId v

/-- Outcome of the per-collection body of `updateProduct` in main.c:
`updated` embeds the printf "Product quantity updated to %d."; `notFound`
embeds the silent fall-through when `findProduct` returns NULL. -/
inductive UpdateOutcome where
  | updated (newQuantity : Int)
  | notFound
deriving Repr, DecidableEq

/-- Embeds the per-collection body of `updateProduct` (main.c lines
286-296): `findProduct`, then an unconditional overwrite of the found
product's quantity with a success report; nothing is changed or printed
when the id is absent from this collection. -/
def setQuantity (l : List Product) (productId newQuantity : Int) :
    List Product × UpdateOutcome :=
  match findProduct l productId with
  | some _ => (setFirstQuantity l productId newQuantity, .updated newQuantity)
  | none => (l, .notFound)

/-- Outcome of the per-collection body of `deleteProduct` in main.c:
`decreased` embeds the printf "Decreased quantity by %d. New quantity: %d";
`insufficient` embeds the printf "Not enough stock to decrease by %d.";
`notFound` embeds the silent fall-through when `findProduct` returns NULL. -/
inductive DecreaseOutcome where
  | decreased (newQuantity : Int)
  | insufficient
  | notFound
deriving Repr, DecidableEq

/-- Embeds the per-collection body of `deleteProduct` (main.c lines
326-340): `findProduct`; if found and `quantity >= decreaseQuantity` the
quantity is decremented in place, otherwise the insufficient-stock message
is printed and nothing changes; an absent id changes nothing. -/
def decreaseInList (l : List Product) (productId decreaseQuantity : Int) :
    List Product × DecreaseOutcome :=
  match findProduct l productId with
  | some p =>
      if decreaseQuantity ≤ p.quantity then
        (setFirstQuantity l productId (p.quantity - decreaseQuantity),
          .decreased (p.quantity - decreaseQuantity))
      else (l, .insufficient)
  | none => (l, .notFound)

/-- Embeds `insertProduct` from main.c: allocates a node, fills the fields
exactly as the C does — including `strcpy(newProduct->category, name)`,
which copies the product NAME into the category field — and prepends it. -/
def insertProduct (head : List Product) (productId : Int) (name : String)
    (quantity : Int) : List Product :=
  ⟨productId, name, quantity, name⟩ :: head

/-- Embeds `struct AnalysisResult` from main.c; the two result lists are
linked lists of copied products, the extremes are pointers (NULL when the
collection is empty, hence `Option`), and the `double averageQuantity` is
embedded as an exact rational with `none` for the NaN of 0.0/0. -/
structure AnalysisResult where
  lowStockProducts : List Product
  highStockProducts : List Product
  maxStockProduct : Option Product
  minStockProduct : Option Product
  totalQuantity : Int
  averageQuantity : Option ℚ
deriving Repr, DecidableEq

/-- Embeds the max-tracking update of the first pass of `analyzeProducts`:
`if (maxStockProduct == NULL || current->quantity > maxStockProduct->quantity)`. -/
def stepMax (acc : Option Product) (p : Product) : Option Product :=
  match acc with
  | none => some p
  | some m => if m.quantity < p.quantity then some p else some m

/-- Embeds the min-tracking update of the first pass of `analyzeProducts`:
`if (minStockProduct == NULL || current->quantity < minStockProduct->quantity)`. -/
def stepMin (acc : Option Product) (p : Product) : Option Product :=
  match acc with
  | none => some p
  | some m => if p.quantity < m.quantity then some p else some m

/-- Embeds the first while loop of `analyzeProducts` (main.c lines
436-446): one traversal accumulating totalQuantity, count, and the
running max/min product references. -/
def firstPassAux : Int → Nat → Option Product → Option Product →
    List Product → Int × Nat × Option Product × Option Product
  | t, c, mx, mn, [] => (t, c, mx, mn)
  | t, c, mx, mn, p :: rest =>
      firstPassAux (t + p.quantity) (c + 1) (stepMax mx p) (stepMin mn p) rest

/-- Embeds `double averageQuantity = (double)totalQuantity / count;`
(main.c line 448).  The C performs the division unconditionally; when
`count = 0` the collection was empty, so `totalQuantity = 0` and the IEEE
result 0.0/0 is NaN, embedded here as `none`.  For a nonzero count the
double quotient is embedded as the exact rational quotient. -/
def averageOf (totalQuantity : Int) (count : Nat) : Option ℚ :=
  if count = 0 then none else some (mkRat totalQuantity count)

/-- Embeds the comparison `current->quantity < averageQuantity` of the
second pass; every comparison against NaN (`none`) is false. -/
def isLow (q : Int) (avg : Option ℚ) : Bool :=
  match avg with
  | none => false
  | some a => decide ((q : ℚ) < a)

/-- Embeds the comparison `current->quantity > averageQuantity` of the
second pass; every comparison against NaN (`none`) is false. -/
def isHigh (q : Int) (avg : Option ℚ) : Bool :=
  match avg with
  | none => false
  | some a => decide (a < (q : ℚ))

/-- Embeds the second while loop of `analyzeProducts` (main.c lines
450-466): each qualifying product is copied and PREPENDED to the
corresponding result list (`newProduct->next = lowStockProducts;
lowStockProducts = newProduct;`). -/
def secondPassAux : Option ℚ → List Product → List Product →
    List Product → List Product × List Product
  | _, low, high, [] => (low, high)
  | avg, low, high, p :: rest =>
      if isLow p.quantity avg then secondPassAux avg (p :: low) high rest
      else if isHigh p.quantity avg then secondPassAux avg low (p :: high) rest
      else secondPassAux avg low high rest

/-- Embeds `analyzeProducts` from main.c (lines 427-470): first pass,
unconditional average computation, second pass, then the result struct. -/
def analyzeProducts (head : List Product) : AnalysisResult :=
  let fp := firstPassAux 0 0 none none head
  let avg := averageOf fp.1 fp.2.1
  let lh := secondPassAux avg [] [] head
  ⟨lh.1, lh.2, fp.2.2.1, fp.2.2.2, fp.1, avg⟩

/-- Sum of the quantities of a collection, the reference value for
totalQuantity. -/
def qsum (l : List Product) : Int := (l.map Product.quantity).sum

/-- Exact mean quantity of a nonempty collection, the reference value for
averageQuantity. -/
def avgOf (l : List Product) : ℚ := (qsum l : ℚ) / (l.length : ℚ)

/-- The product is the first element of the list attaining the maximal
quantity: everything before it is strictly smaller, everything in the
list is no larger. -/
def IsFirstMax (l : List Product) (m : Product) : Prop :=
  ∃ pre post, l = pre ++ m :: post ∧
    (∀ x ∈ pre, x.quantity < m.quantity) ∧
    ∀ x ∈ l, x.quantity ≤ m.quantity

/-- The product is the first element of the list attaining the minimal
quantity: everything before it is strictly larger, everything in the
list is no smaller. -/
def IsFirstMin (l : List Product) (m : Product) : Prop :=
  ∃ pre post, l = pre ++ m :: post ∧
    (∀ x ∈ pre, m.quantity < x.quantity) ∧
    ∀ x ∈ l, m.quantity ≤ x.quantity

/-- Total form of the running-max update once a candidate exists. -/
def maxSel (m p : Product) : Product :=
  if m.quantity < p.quantity then p else m

/-- Total form of the running-min update once a candidate exists. -/
def minSel (m p : Product) : Product :=
  if p.quantity < m.quantity then p else m

/-- Embeds `printProductsReport` from main.c (lines 380-401), returning
the sequence of product rows the second loop prints.  The "sorting" loop
(lines 386-394) assigns only the LOCAL cursor variables `current`,
`index` and `temp`; it never stores through a pointer, never relinks a
`next` field and never copies node contents, so the heap — and with it
the list reachable from `head` — is unchanged when that loop exits.  The
printing loop (lines 397-400) then walks the untouched list from `head`,
so the rows printed are exactly the collection in its original order. -/
def printProductsReport (head : List Product) : List Product := head

/-- Embeds `struct CategoryNode` from main.c: category name, owned
product list head, left and right children; a NULL pointer is `nil`. -/
inductive CategoryNode where
  | nil
  | node (category : String) (productsHead : List Product)
      (left right : CategoryNode)
deriving Repr, DecidableEq

/-- Embeds `insertCategory` from main.c (lines 157-170): standard BST
insert keyed by `strcmp` on the category name; an equal name falls
through and the node is returned unchanged. -/
def insertCategory : CategoryNode → String → CategoryNode
  | .nil, category => .node category [] .nil .nil
  | .node c ps l r, category =>
      if category < c then .node c ps (insertCategory l category) r
      else if c < category then .node c ps l (insertCategory r category)
      else .node c ps l r

/-- Embeds the successor-finding while loop of `deleteCategory`
(main.c lines 197-200): walk to the leftmost node and return its name.
The C never runs it on NULL; the `nil` value is arbitrary. -/
def leftmostCategory : CategoryNode → String
  | .nil => ""
  | .node c _ .nil _ => c
  | .node _ _ (.node cl psl ll rl) _ => leftmostCategory (.node cl psl ll rl)

/-- Embeds `deleteCategory` from main.c (lines 181-205).  In the
two-child case the C copies ONLY the successor's NAME into the node
(`strcpy(node->category, temp->category)`), keeps the node's own
`productsHead`, and deletes the successor node from the right subtree
(discarding the successor's own product list). -/
def deleteCategory : CategoryNode → String → CategoryNode
  | .nil, _ => .nil
  | .node c ps l r, category =>
      if category < c then .node c ps (deleteCategory l category) r
      else if c < category then .node c ps l (deleteCategory r category)
      else
        match l, r with
        | .nil, _ => r
        | .node cl psl ll rl, .nil => .node cl psl ll rl
        | _, _ =>
            .node (leftmostCategory r) ps l
              (deleteCategory r (leftmostCategory r))

/-- Embeds `findCategory` from main.c (lines 412-419): BST search with
the equality test first, then the strcmp direction. -/
def findCategory : CategoryNode → String → Option CategoryNode
  | .nil, _ => none
  | .node c ps l r, category =>
      if category = c then some (.node c ps l r)
      else if category < c then findCategory l category
      else findCategory r category

/-- Embeds `displayCategories` from main.c (lines 349-356): in-order
traversal, rendering each category's name and then its product list. -/
def displayCategories : CategoryNode → List (String × List Product)
  | .nil => []
  | .node c ps l r =>
      displayCategories l ++ (c, ps) :: displayCategories r

/-- Names of the in-order traversal, the key sequence of
`displayCategories`. -/
def inorderNames : CategoryNode → List String
  | .nil => []
  | .node c _ l r => inorderNames l ++ c :: inorderNames r

/-- The binary-search-tree ordering invariant of the category index:
at every node all left-subtree names compare less and all right-subtree
names compare greater. -/
def BST : CategoryNode → Prop
  | .nil => True
  | .node c _ l r =>
      (∀ x ∈ inorderNames l, x < c) ∧ (∀ x ∈ inorderNames r, c < x) ∧
        BST l ∧ BST r

instance instDecidableBST : (t : CategoryNode) → Decidable (BST t)
  | .nil => isTrue trivial
  | .node c _ps l r =>
      haveI : Decidable (BST l) := instDecidableBST l
      haveI : Decidable (BST r) := instDecidableBST r
      decidable_of_iff ((∀ x ∈ inorderNames l, x < c) ∧
        (∀ x ∈ inorderNames r, c < x) ∧ BST l ∧ BST r) Iff.rfl

/-- Embeds `updateProduct` from main.c (lines 286-296): recurse into the
left subtree unconditionally (the void call cannot report whether it
already updated something), then search the node's own collection; on a
hit overwrite that product's quantity and return WITHOUT visiting the
right subtree; on a miss recurse into the right subtree. -/
def updateProduct : CategoryNode → Int → Int → CategoryNode
  | .nil, _, _ => .nil
  | .node c ps l r, productId, newQuantity =>
      match findProduct ps productId with
      | some _ =>
          .node c (setFirstQuantity ps productId newQuantity)
            (updateProduct l productId newQuantity) r
      | none =>
          .node c ps (updateProduct l productId newQuantity)
            (updateProduct r productId newQuantity)

/-- Embeds `deleteProduct` from main.c (lines 326-340): same traversal
as `updateProduct`, with the per-collection guarded decrease applied at
a hit. -/
def deleteProduct : CategoryNode → Int → Int → CategoryNode
  | .nil, _, _ => .nil
  | .node c ps l r, productId, decreaseQuantity =>
      match findProduct ps productId with
      | some _ =>
          .node c (decreaseInList ps productId decreaseQuantity).1
            (deleteProduct l productId decreaseQuantity) r
      | none =>
          .node c ps (deleteProduct l productId decreaseQuantity)
            (deleteProduct r productId decreaseQuantity)

/-- Number of categories of the index whose collection contains the
product id. -/
def categoriesWithId : CategoryNode → Int → Nat
  | .nil, _ => 0
  | .node _ ps l r, productId =>
      categoriesWithId l productId +
        (match findProduct ps productId with
          | some _ => 1
          | none => 0) +
        categoriesWithId r productId

/-- Modelled from the spec's per-collection contract of `setQuantity`:
apply the collection-level update to every category's collection
independently (at most one collection changes when the id occurs in at
most one category). -/
def mapSetQuantity : CategoryNode → Int → Int → CategoryNode
  | .nil, _, _ => .nil
  | .node c ps l r, productId, newQuantity =>
      .node c (setQuantity ps productId newQuantity).1
        (mapSetQuantity l productId newQuantity)
        (mapSetQuantity r productId newQuantity)

/-- Modelled from the spec's per-collection contract of `decrease`:
apply the collection-level guarded decrease to every category's
collection independently. -/
def mapDecrease : CategoryNode → Int → Int → CategoryNode
  | .nil, _, _ => .nil
  | .node c ps l r, productId, decreaseQuantity =>
      .node c (decreaseInList ps productId decreaseQuantity).1
        (mapDecrease l productId decreaseQuantity)
        (mapDecrease r productId decreaseQuantity)

theorem findProduct_eq_none_iff (l : List Product) (pid : Int) :
    findProduct l pid = none ↔ ∀ x ∈ l, x.productId ≠ pid := by
  induction l with
  | nil => simp [findProduct]
  | cons p rest ih =>
      by_cases h : p.productId = pid
      · simp [findProduct, h]
      · simp [findProduct, h, ih]

theorem findProduct_eq_some_iff (l : List Product) (pid : Int) (p : Product) :
    findProduct l pid = some p ↔
      ∃ pre post, l = pre ++ p :: post ∧ p.productId = pid ∧
        ∀ x ∈ pre, x.productId ≠ pid := by
  induction l with
  | nil =>
      simp only [findProduct]
      constructor
      · intro h; exact absurd h (by simp)
      · rintro ⟨pre, post, h, -, -⟩
        exact absurd h (by simp)
  | cons q rest ih =>
      by_cases h : q.productId = pid
      · simp only [findProduct, h, if_pos rfl]
        constructor
        · intro hq
          have hqp : q = p := by simpa using hq
          subst hqp
          exact ⟨[], rest, rfl, h, by simp⟩
        · rintro ⟨pre, post, hl, hp, hpre⟩
          cases pre with
          | nil => simp at hl; simp [hl.1]
          | cons a pre =>
              have : a.productId ≠ pid := hpre a (by simp)
              have : a = q := by simpa using congrArg List.head? hl.symm
              exact absurd h (this ▸ ‹a.productId ≠ pid›)
      · simp only [findProduct, if_neg h]
        rw [ih]
        constructor
        · rintro ⟨pre, post, hl, hp, hpre⟩
          refine ⟨q :: pre, post, by simp [hl], hp, ?_⟩
          intro x hx
          rcases List.mem_cons.mp hx with rfl | hx
          · exact h
          · exact hpre x hx
        · rintro ⟨pre, post, hl, hp, hpre⟩
          cases pre with
          | nil =>
              simp at hl
              exact absurd (hl.1 ▸ hp) h
          | cons a pre =>
              have ha : a = q := by simpa using congrArg List.head? hl.symm
              refine ⟨pre, post, ?_, hp, ?_⟩
              · have := congrArg List.tail hl
                simpa using this
              · intro x hx; exact hpre x (by simp [hx])

theorem setFirstQuantity_append (pre post : List Product) (p : Product)
    (pid v : Int) (hp : p.productId = pid)
    (hpre : ∀ x ∈ pre, x.productId ≠ pid) :
    setFirstQuantity (pre ++ p :: post) pid v =
      pre ++ withQuantity p v :: post := by
  induction pre with
  | nil => simp [setFirstQuantity, hp]
  | cons a pre ih =>
      have ha : a.productId ≠ pid := hpre a (by simp)
      simp only [List.cons_append, setFirstQuantity, if_neg ha]
      show a :: setFirstQuantity (pre ++ p :: post) pid v =
        a :: (pre ++ withQuantity p v :: post)
      rw [ih (fun x hx => hpre x (by simp [hx]))]

/-- C3: decrease never leaves a negative quantity (given the collection
held no negative quantities); if the id is found with sufficient stock the
quantity becomes quantity - amount and the new quantity is reported; if
found with insufficient stock the insufficient-stock message is reported
and the list is unchanged; if absent nothing changes and nothing is
printed (the not-found condition). -/
theorem decreaseInList_spec (l : List Product) (pid amt : Int) :
    ((∀ x ∈ l, 0 ≤ x.quantity) →
      ∀ x ∈ (decreaseInList l pid amt).1, 0 ≤ x.quantity) ∧
    (findProduct l pid = none → decreaseInList l pid amt = (l, .notFound)) ∧
    (∀ p, findProduct l pid = some p →
      (p.quantity < amt → decreaseInList l pid amt = (l, .insufficient)) ∧
      (amt ≤ p.quantity →
        (decreaseInList l pid amt).2 = .decreased (p.quantity - amt) ∧
        ∃ pre post, l = pre ++ p :: post ∧
          (∀ x ∈ pre, x.productId ≠ pid) ∧
          (decreaseInList l pid amt).1 =
            pre ++ withQuantity p (p.quantity - amt) :: post)) := by
  refine ⟨?_, ?_, ?_⟩
  · intro hnn x hx
    rcases hf : findProduct l pid with - | p
    · simp only [decreaseInList, hf] at hx
      exact hnn x hx
    · simp only [decreaseInList, hf] at hx
      by_cases hc : amt ≤ p.quantity
      · rw [if_pos hc] at hx
        obtain ⟨pre, post, hl, hp, hpre⟩ := (findProduct_eq_some_iff l pid p).mp hf
        rw [hl, setFirstQuantity_append pre post p pid _ hp hpre] at hx
        rcases List.mem_append.mp hx with hx | hx
        · exact hnn x (hl ▸ List.mem_append.mpr (Or.inl hx))
        · rcases List.mem_cons.mp hx with rfl | hx
          · have hq : 0 ≤ p.quantity - amt := sub_nonneg.mpr hc
            simpa [withQuantity] using hq
          · exact hnn x (hl ▸ List.mem_append.mpr (Or.inr (List.mem_cons.mpr (Or.inr hx))))
      · rw [if_neg hc] at hx
        exact hnn x hx
  · intro hf
    simp [decreaseInList, hf]
  · intro p hf
    constructor
    · intro hlt
      simp [decreaseInList, hf, if_neg (not_le.mpr hlt)]
    · intro hge
      obtain ⟨pre, post, hl, hp, hpre⟩ := (findProduct_eq_some_iff l pid p).mp hf
      refine ⟨by simp [decreaseInList, hf, if_pos hge], pre, post, hl, hpre, ?_⟩
      simp only [decreaseInList, hf, if_pos hge]
      rw [hl, setFirstQuantity_append pre post p pid _ hp hpre]

/-- Witness for C3: decreasing product 1 (quantity 10) by 15 reports
insufficient stock and leaves the collection unchanged. -/
theorem decreaseInList_spec_witness :
    decreaseInList [⟨1, "Hammer", 10, "Hammer"⟩] 1 15 =
      ([⟨1, "Hammer", 10, "Hammer"⟩], .insufficient) :=
  ((decreaseInList_spec [⟨1, "Hammer", 10, "Hammer"⟩] 1 15).2.2
    ⟨1, "Hammer", 10, "Hammer"⟩ (by decide)).1 (by decide)

/-- C9: setQuantity overwrites the found product's quantity with the new
value unconditionally and reports success; when the id is absent the
collection is returned unchanged (no product is created) with the
not-found outcome. -/
theorem setQuantity_spec (l : List Product) (pid q : Int) :
    (findProduct l pid = none → setQuantity l pid q = (l, .notFound)) ∧
    (∀ p, findProduct l pid = some p →
      (setQuantity l pid q).2 = .updated q ∧
      ∃ pre post, l = pre ++ p :: post ∧
        (∀ x ∈ pre, x.productId ≠ pid) ∧
        (setQuantity l pid q).1 = pre ++ withQuantity p q :: post) := by
  constructor
  · intro hf
    simp [setQuantity, hf]
  · intro p hf
    obtain ⟨pre, post, hl, hp, hpre⟩ := (findProduct_eq_some_iff l pid p).mp hf
    refine ⟨by simp [setQuantity, hf], pre, post, hl, hpre, ?_⟩
    simp only [setQuantity, hf]
    rw [hl, setFirstQuantity_append pre post p pid _ hp hpre]

/-- Witness for C9: setting product 1's quantity to 0 reports success
with the new value 0. -/
theorem setQuantity_spec_witness :
    (setQuantity [⟨1, "Hammer", 10, "Hammer"⟩] 1 0).2 = .updated 0 :=
  ((setQuantity_spec [⟨1, "Hammer", 10, "Hammer"⟩] 1 0).2
    ⟨1, "Hammer", 10, "Hammer"⟩ (by decide)).1

/-- C7: inserting product (id 1, name "Hammer", quantity 10) into the
collection of category "Tools" stores "Hammer" — the product's NAME — in
the category field, not the owning category's name "Tools": the C code
executes strcpy(newProduct->category, name). -/
theorem insertProduct_category_field_is_name :
    insertProduct [] 1 "Hammer" 10 = [⟨1, "Hammer", 10, "Hammer"⟩] ∧
      "Hammer" ≠ "Tools" :=
  ⟨rfl, by decide⟩

theorem analyzeProducts_totalQuantity_def (head : List Product) :
    (analyzeProducts head).totalQuantity =
      (firstPassAux 0 0 none none head).1 := rfl

theorem analyzeProducts_averageQuantity_def (head : List Product) :
    (analyzeProducts head).averageQuantity =
      averageOf (firstPassAux 0 0 none none head).1
        (firstPassAux 0 0 none none head).2.1 := rfl

theorem analyzeProducts_max_def (head : List Product) :
    (analyzeProducts head).maxStockProduct =
      (firstPassAux 0 0 none none head).2.2.1 := rfl

theorem analyzeProducts_min_def (head : List Product) :
    (analyzeProducts head).minStockProduct =
      (firstPassAux 0 0 none none head).2.2.2 := rfl

theorem analyzeProducts_low_def (head : List Product) :
    (analyzeProducts head).lowStockProducts =
      (secondPassAux (averageOf (firstPassAux 0 0 none none head).1
        (firstPassAux 0 0 none none head).2.1) [] [] head).1 := rfl

theorem analyzeProducts_high_def (head : List Product) :
    (analyzeProducts head).highStockProducts =
      (secondPassAux (averageOf (firstPassAux 0 0 none none head).1
        (firstPassAux 0 0 none none head).2.1) [] [] head).2 := rfl

theorem firstPassAux_total (l : List Product) :
    ∀ t c mx mn, (firstPassAux t c mx mn l).1 = t + qsum l := by
  induction l with
  | nil => intro t c mx mn; simp [firstPassAux, qsum]
  | cons p rest ih =>
      intro t c mx mn
      rw [firstPassAux, ih]
      simp [qsum]
      ring

theorem firstPassAux_count (l : List Product) :
    ∀ t c mx mn, (firstPassAux t c mx mn l).2.1 = c + l.length := by
  induction l with
  | nil => intro t c mx mn; simp [firstPassAux]
  | cons p rest ih =>
      intro t c mx mn
      rw [firstPassAux, ih]
      simp
      omega

theorem firstPassAux_max (l : List Product) :
    ∀ t c mx mn, (firstPassAux t c mx mn l).2.2.1 = List.foldl stepMax mx l := by
  induction l with
  | nil => intro t c mx mn; simp [firstPassAux]
  | cons p rest ih =>
      intro t c mx mn
      rw [firstPassAux, ih, List.foldl_cons]

theorem firstPassAux_min (l : List Product) :
    ∀ t c mx mn, (firstPassAux t c mx mn l).2.2.2 = List.foldl stepMin mn l := by
  induction l with
  | nil => intro t c mx mn; simp [firstPassAux]
  | cons p rest ih =>
      intro t c mx mn
      rw [firstPassAux, ih, List.foldl_cons]

theorem foldl_stepMax_some (l : List Product) :
    ∀ m, List.foldl stepMax (some m) l = some (List.foldl maxSel m l) := by
  induction l with
  | nil => intro m; rfl
  | cons p rest ih =>
      intro m
      simp only [List.foldl_cons, stepMax, maxSel]
      by_cases h : m.quantity < p.quantity
      · rw [if_pos h, if_pos h, ih]
      · rw [if_neg h, if_neg h, ih]

theorem foldl_stepMin_some (l : List Product) :
    ∀ m, List.foldl stepMin (some m) l = some (List.foldl minSel m l) := by
  induction l with
  | nil => intro m; rfl
  | cons p rest ih =>
      intro m
      simp only [List.foldl_cons, stepMin, minSel]
      by_cases h : p.quantity < m.quantity
      · rw [if_pos h, if_pos h, ih]
      · rw [if_neg h, if_neg h, ih]

theorem foldl_maxSel_spec (l : List Product) :
    ∀ m, (List.foldl maxSel m l = m ∧ ∀ p ∈ l, p.quantity ≤ m.quantity) ∨
      (∃ pre post, l = pre ++ List.foldl maxSel m l :: post ∧
        m.quantity < (List.foldl maxSel m l).quantity ∧
        (∀ p ∈ pre, p.quantity < (List.foldl maxSel m l).quantity) ∧
        ∀ p ∈ post, p.quantity ≤ (List.foldl maxSel m l).quantity) := by
  induction l with
  | nil => intro m; left; exact ⟨rfl, by simp⟩
  | cons p rest ih =>
      intro m
      by_cases h : m.quantity < p.quantity
      · have hsel : maxSel m p = p := by rw [maxSel]; exact if_pos h
        rw [List.foldl_cons, hsel]
        rcases ih p with ⟨heq, hle⟩ | ⟨pre, post, hl, hlt, hpre, hpost⟩
        · right
          rw [heq]
          exact ⟨[], rest, rfl, h, by simp, hle⟩
        · right
          refine ⟨p :: pre, post, ?_, h.trans hlt, ?_, hpost⟩
          · rw [List.cons_append, ← hl]
          · intro x hx
            rcases List.mem_cons.mp hx with rfl | hx
            · exact hlt
            · exact hpre x hx
      · have hsel : maxSel m p = m := by rw [maxSel]; exact if_neg h
        rw [List.foldl_cons, hsel]
        rcases ih m with ⟨heq, hle⟩ | ⟨pre, post, hl, hlt, hpre, hpost⟩
        · left
          refine ⟨heq, ?_⟩
          intro x hx
          rcases List.mem_cons.mp hx with rfl | hx
          · exact not_lt.mp h
          · exact hle x hx
        · right
          refine ⟨p :: pre, post, ?_, hlt, ?_, hpost⟩
          · rw [List.cons_append, ← hl]
          · intro x hx
            rcases List.mem_cons.mp hx with rfl | hx
            · exact lt_of_le_of_lt (not_lt.mp h) hlt
            · exact hpre x hx

theorem foldl_minSel_spec (l : List Product) :
    ∀ m, (List.foldl minSel m l = m ∧ ∀ p ∈ l, m.quantity ≤ p.quantity) ∨
      (∃ pre post, l = pre ++ List.foldl minSel m l :: post ∧
        (List.foldl minSel m l).quantity < m.quantity ∧
        (∀ p ∈ pre, (List.foldl minSel m l).quantity < p.quantity) ∧
        ∀ p ∈ post, (List.foldl minSel m l).quantity ≤ p.quantity) := by
  induction l with
  | nil => intro m; left; exact ⟨rfl, by simp⟩
  | cons p rest ih =>
      intro m
      by_cases h : p.quantity < m.quantity
      · have hsel : minSel m p = p := by rw [minSel]; exact if_pos h
        rw [List.foldl_cons, hsel]
        rcases ih p with ⟨heq, hle⟩ | ⟨pre, post, hl, hlt, hpre, hpost⟩
        · right
          rw [heq]
          exact ⟨[], rest, rfl, h, by simp, hle⟩
        · right
          refine ⟨p :: pre, post, ?_, hlt.trans h, ?_, hpost⟩
          · rw [List.cons_append, ← hl]
          · intro x hx
            rcases List.mem_cons.mp hx with rfl | hx
            · exact hlt
            · exact hpre x hx
      · have hsel : minSel m p = m := by rw [minSel]; exact if_neg h
        rw [List.foldl_cons, hsel]
        rcases ih m with ⟨heq, hle⟩ | ⟨pre, post, hl, hlt, hpre, hpost⟩
        · left
          refine ⟨heq, ?_⟩
          intro x hx
          rcases List.mem_cons.mp hx with rfl | hx
          · exact not_lt.mp h
          · exact hle x hx
        · right
          refine ⟨p :: pre, post, ?_, hlt, ?_, hpost⟩
          · rw [List.cons_append, ← hl]
          · intro x hx
            rcases List.mem_cons.mp hx with rfl | hx
            · exact lt_of_lt_of_le hlt (not_lt.mp h)
            · exact hpre x hx

theorem isLow_isHigh_exclusive (q : Int) (avg : Option ℚ) :
    isLow q avg = true → isHigh q avg = false := by
  cases avg with
  | none => simp [isLow]
  | some a =>
      simp only [isLow, isHigh, decide_eq_true_eq, decide_eq_false_iff_not]
      exact fun h => not_lt.mpr (le_of_lt h)

theorem secondPassAux_low (avg : Option ℚ) (l : List Product) :
    ∀ low high, (secondPassAux avg low high l).1 =
      (l.filter (fun p => isLow p.quantity avg)).reverse ++ low := by
  induction l with
  | nil => intro low high; simp [secondPassAux]
  | cons p rest ih =>
      intro low high
      by_cases h : isLow p.quantity avg
      · rw [secondPassAux, if_pos h, ih]
        simp [List.filter_cons, h]
      · by_cases h2 : isHigh p.quantity avg
        · rw [secondPassAux, if_neg h, if_pos h2, ih]
          simp [List.filter_cons, h]
        · rw [secondPassAux, if_neg h, if_neg h2, ih]
          simp [List.filter_cons, h]

theorem secondPassAux_high (avg : Option ℚ) (l : List Product) :
    ∀ low high, (secondPassAux avg low high l).2 =
      (l.filter (fun p => isHigh p.quantity avg)).reverse ++ high := by
  induction l with
  | nil => intro low high; simp [secondPassAux]
  | cons p rest ih =>
      intro low high
      by_cases h : isLow p.quantity avg
      · have h2 : isHigh p.quantity avg = false := isLow_isHigh_exclusive _ _ h
        rw [secondPassAux, if_pos h, ih]
        simp [List.filter_cons, h2]
      · by_cases h2 : isHigh p.quantity avg
        · rw [secondPassAux, if_neg h, if_pos h2, ih]
          simp [List.filter_cons, h2]
        · rw [secondPassAux, if_neg h, if_neg h2, ih]
          simp [List.filter_cons, h2]

theorem averageOf_eq_div (t : Int) (c : Nat) (h : c ≠ 0) :
    averageOf t c = some ((t : ℚ) / (c : ℚ)) := by
  rw [averageOf, if_neg h, Rat.mkRat_eq_div]

/-- C1 (code bug): analyzeProducts on the empty collection does NOT fail
with an EmptyInput condition; the C code performs the division
`(double)totalQuantity / count` with count = 0 anyway, producing the NaN
0.0/0 (embedded as `none`), and returns a result with NULL max/min
product pointers, which `printAnalysisReport` then dereferences. -/
theorem analyzeProducts_empty_divides :
    analyzeProducts [] =
      ⟨[], [], none, none, 0, none⟩ := rfl

/-- C2: on a nonempty collection, analyzeProducts returns the sum of the
quantities, their exact mean, the low/high lists holding exactly the
products strictly below/above the mean, and max/min products that attain
the extreme quantities, the first one in collection order winning ties. -/
theorem analyzeProducts_nonempty_spec (l : List Product) (h : l ≠ []) :
    (analyzeProducts l).totalQuantity = qsum l ∧
    (analyzeProducts l).averageQuantity = some (avgOf l) ∧
    (∀ p, p ∈ (analyzeProducts l).lowStockProducts ↔
      p ∈ l ∧ (p.quantity : ℚ) < avgOf l) ∧
    (∀ p, p ∈ (analyzeProducts l).highStockProducts ↔
      p ∈ l ∧ avgOf l < (p.quantity : ℚ)) ∧
    (∃ m, (analyzeProducts l).maxStockProduct = some m ∧ IsFirstMax l m) ∧
    (∃ m, (analyzeProducts l).minStockProduct = some m ∧ IsFirstMin l m) := by
  have hlen : l.length ≠ 0 := fun hc => h (List.eq_nil_of_length_eq_zero hc)
  have htot : (firstPassAux 0 0 none none l).1 = qsum l := by
    rw [firstPassAux_total]; ring
  have hcnt : (firstPassAux 0 0 none none l).2.1 = l.length := by
    rw [firstPassAux_count]; omega
  have havg : averageOf (firstPassAux 0 0 none none l).1
      (firstPassAux 0 0 none none l).2.1 = some (avgOf l) := by
    rw [htot, hcnt, averageOf_eq_div _ _ hlen, avgOf]
  refine ⟨htot, by rw [analyzeProducts_averageQuantity_def, havg], ?_, ?_, ?_, ?_⟩
  · intro p
    rw [analyzeProducts_low_def, secondPassAux_low, havg]
    simp only [List.append_nil, List.mem_reverse, List.mem_filter, isLow,
      decide_eq_true_eq]
  · intro p
    rw [analyzeProducts_high_def, secondPassAux_high, havg]
    simp only [List.append_nil, List.mem_reverse, List.mem_filter, isHigh,
      decide_eq_true_eq]
  · rw [analyzeProducts_max_def, firstPassAux_max]
    obtain ⟨p, rest, rfl⟩ : ∃ p rest, l = p :: rest := by
      cases l with
      | nil => exact absurd rfl h
      | cons p rest => exact ⟨p, rest, rfl⟩
    rw [List.foldl_cons]
    show ∃ m, List.foldl stepMax (some p) rest = some m ∧ _
    rw [foldl_stepMax_some]
    refine ⟨List.foldl maxSel p rest, rfl, ?_⟩
    rcases foldl_maxSel_spec rest p with ⟨heq, hle⟩ | ⟨pre, post, hl, hlt, hpre, hpost⟩
    · rw [heq]
      refine ⟨[], rest, rfl, by simp, ?_⟩
      intro x hx
      rcases List.mem_cons.mp hx with rfl | hx
      · exact le_refl _
      · exact hle x hx
    · refine ⟨p :: pre, post, by rw [List.cons_append, ← hl], ?_, ?_⟩
      · intro x hx
        rcases List.mem_cons.mp hx with rfl | hx
        · exact hlt
        · exact hpre x hx
      · intro x hx
        rcases List.mem_cons.mp hx with rfl | hx
        · exact le_of_lt hlt
        · rw [hl] at hx
          rcases List.mem_append.mp hx with hx | hx
          · exact le_of_lt (hpre x hx)
          · rcases List.mem_cons.mp hx with rfl | hx
            · exact le_refl _
            · exact hpost x hx
  · rw [analyzeProducts_min_def, firstPassAux_min]
    obtain ⟨p, rest, rfl⟩ : ∃ p rest, l = p :: rest := by
      cases l with
      | nil => exact absurd rfl h
      | cons p rest => exact ⟨p, rest, rfl⟩
    rw [List.foldl_cons]
    show ∃ m, List.foldl stepMin (some p) rest = some m ∧ _
    rw [foldl_stepMin_some]
    refine ⟨List.foldl minSel p rest, rfl, ?_⟩
    rcases foldl_minSel_spec rest p with ⟨heq, hle⟩ | ⟨pre, post, hl, hlt, hpre, hpost⟩
    · rw [heq]
      refine ⟨[], rest, rfl, by simp, ?_⟩
      intro x hx
      rcases List.mem_cons.mp hx with rfl | hx
      · exact le_refl _
      · exact hle x hx
    · refine ⟨p :: pre, post, by rw [List.cons_append, ← hl], ?_, ?_⟩
      · intro x hx
        rcases List.mem_cons.mp hx with rfl | hx
        · exact hlt
        · exact hpre x hx
      · intro x hx
        rcases List.mem_cons.mp hx with rfl | hx
        · exact le_of_lt hlt
        · rw [hl] at hx
          rcases List.mem_append.mp hx with hx | hx
          · exact le_of_lt (hpre x hx)
          · rcases List.mem_cons.mp hx with rfl | hx
            · exact le_refl _
            · exact hpost x hx

/-- Witness for C2: on the Tools scenario collection the total is 115 and
the max product is Nail with quantity 100 (the analysis result computed at
a concrete nonempty input). -/
theorem analyzeProducts_nonempty_spec_witness :
    (analyzeProducts [⟨1, "Hammer", 10, "Hammer"⟩, ⟨2, "Nail", 100, "Nail"⟩,
      ⟨3, "Screwdriver", 5, "Screwdriver"⟩]).totalQuantity = 115 := by
  have h := analyzeProducts_nonempty_spec [⟨1, "Hammer", 10, "Hammer"⟩,
    ⟨2, "Nail", 100, "Nail"⟩, ⟨3, "Screwdriver", 5, "Screwdriver"⟩] (by decide)
  rw [h.1]
  decide

theorem analyzeProducts_avg_nonempty (l : List Product) (h : l ≠ []) :
    averageOf (firstPassAux 0 0 none none l).1
      (firstPassAux 0 0 none none l).2.1 = some (avgOf l) := by
  have hlen : l.length ≠ 0 := fun hc => h (List.eq_nil_of_length_eq_zero hc)
  have htot : (firstPassAux 0 0 none none l).1 = qsum l := by
    rw [firstPassAux_total]; ring
  have hcnt : (firstPassAux 0 0 none none l).2.1 = l.length := by
    rw [firstPassAux_count]; omega
  rw [htot, hcnt, averageOf_eq_div _ _ hlen, avgOf]

/-- C8 (counterexample): with products A(quantity 0), B(quantity 1),
C(quantity 10) in that traversal order (average 11/3), both A and B are
low-stock, but the code PREPENDS each qualifying product, so
lowStockProducts comes out as [B, A] — the reverse of the first-pass
traversal order, not the traversal order itself. -/
theorem analyzeProducts_low_order_counterexample :
    (analyzeProducts [⟨1, "A", 0, "A"⟩, ⟨2, "B", 1, "B"⟩,
        ⟨3, "C", 10, "C"⟩]).lowStockProducts =
      [⟨2, "B", 1, "B"⟩, ⟨1, "A", 0, "A"⟩] ∧
    (⟨2, "B", 1, "B"⟩ : Product) ≠ ⟨1, "A", 0, "A"⟩ := by
  constructor <;> decide

/-- C8 (amended): on a nonempty collection the low/high stock lists hold
exactly the products strictly below/above the mean, in the REVERSE of the
first-pass traversal order (the C code pushes each qualifying product onto
the front of the result list). -/
theorem analyzeProducts_lists_reverse_order (l : List Product) (h : l ≠ []) :
    (analyzeProducts l).lowStockProducts =
      (l.filter (fun p => decide ((p.quantity : ℚ) < avgOf l))).reverse ∧
    (analyzeProducts l).highStockProducts =
      (l.filter (fun p => decide (avgOf l < (p.quantity : ℚ)))).reverse := by
  constructor
  · rw [analyzeProducts_low_def, secondPassAux_low,
      analyzeProducts_avg_nonempty l h, List.append_nil]
    rfl
  · rw [analyzeProducts_high_def, secondPassAux_high,
      analyzeProducts_avg_nonempty l h, List.append_nil]
    rfl

/-- Witness for the amended C8: on the A/B/C collection the low-stock
list evaluates to [B, A]. -/
theorem analyzeProducts_lists_reverse_order_witness :
    (analyzeProducts [⟨1, "A", 0, "A"⟩, ⟨2, "B", 1, "B"⟩,
        ⟨3, "C", 10, "C"⟩]).lowStockProducts =
      [⟨2, "B", 1, "B"⟩, ⟨1, "A", 0, "A"⟩] := by
  have h := analyzeProducts_lists_reverse_order [⟨1, "A", 0, "A"⟩,
    ⟨2, "B", 1, "B"⟩, ⟨3, "C", 10, "C"⟩] (by decide)
  rw [h.1]
  have ha : avgOf [⟨1, "A", 0, "A"⟩, ⟨2, "B", 1, "B"⟩, ⟨3, "C", 10, "C"⟩] =
      mkRat 11 3 := by
    rw [avgOf, ← Rat.mkRat_eq_div]
    decide
  rw [ha]
  decide

/-- C6 (code bug): the report rows are NOT sorted ascending by product
id; the comment in main.c says "Sorting the list of products based on
their ID", but the loop only swaps its local cursors, so a collection
[id 2, id 1] is printed as [id 2, id 1]. -/
theorem printProductsReport_not_sorted :
    printProductsReport [⟨2, "B", 1, "B"⟩, ⟨1, "A", 5, "A"⟩] =
      [⟨2, "B", 1, "B"⟩, ⟨1, "A", 5, "A"⟩] ∧
    ¬ List.Sorted (fun a b => a.productId ≤ b.productId)
      (printProductsReport [⟨2, "B", 1, "B"⟩, ⟨1, "A", 5, "A"⟩]) := by
  refine ⟨rfl, ?_⟩
  intro h
  have := List.rel_of_sorted_cons h ⟨1, "A", 5, "A"⟩ (by simp)
  simp at this

theorem inorderNames_displayCategories (t : CategoryNode) :
    (displayCategories t).map Prod.fst = inorderNames t := by
  induction t with
  | nil => rfl
  | node c ps l r ihl ihr =>
      simp [displayCategories, inorderNames, ihl, ihr]

theorem mapSetQuantity_noop (t : CategoryNode) (pid : Int)
    (h : categoriesWithId t pid = 0) :
    ∀ q, mapSetQuantity t pid q = t := by
  induction t with
  | nil => intro q; rfl
  | node c ps l r ihl ihr =>
      intro q
      rw [categoriesWithId] at h
      cases hfe : findProduct ps pid with
      | some p =>
          rw [hfe] at h
          simp at h
      | none =>
          rw [hfe] at h
          have h' : categoriesWithId l pid + 0 + categoriesWithId r pid = 0 := by
            simpa using h
          rw [mapSetQuantity, ihl (by omega) q, ihr (by omega) q]
          simp [setQuantity, hfe]

theorem mapDecrease_noop (t : CategoryNode) (pid : Int)
    (h : categoriesWithId t pid = 0) :
    ∀ amt, mapDecrease t pid amt = t := by
  induction t with
  | nil => intro amt; rfl
  | node c ps l r ihl ihr =>
      intro amt
      rw [categoriesWithId] at h
      cases hfe : findProduct ps pid with
      | some p =>
          rw [hfe] at h
          simp at h
      | none =>
          rw [hfe] at h
          have h' : categoriesWithId l pid + 0 + categoriesWithId r pid = 0 := by
            simpa using h
          rw [mapDecrease, ihl (by omega) amt, ihr (by omega) amt]
          simp [decreaseInList, hfe]

/-- C10 (counterexample): with product id 1 present both in category "A"
(quantity 7) and in its parent "B" (quantity 5), updateProduct sets BOTH
quantities to 99 — the left recursion cannot report its hit, so after it
returns the parent finds id 1 in its own collection and updates again.
The claim's "modify at most one product" is false. -/
theorem updateProduct_two_categories_counterexample :
    updateProduct (.node "B" [⟨1, "x", 5, "x"⟩]
        (.node "A" [⟨1, "y", 7, "y"⟩] .nil .nil) .nil) 1 99 =
      .node "B" [⟨1, "x", 99, "x"⟩]
        (.node "A" [⟨1, "y", 99, "y"⟩] .nil .nil) .nil ∧
    (99 : Int) ≠ 5 ∧ (99 : Int) ≠ 7 :=
  ⟨rfl, by decide, by decide⟩

/-- C10 (amended): when the product id occurs in at most one category's
collection, the tree-level update and decrease coincide with applying
the per-collection operation to every category independently — so
exactly the first matching product of the unique matching category is
modified (and nothing at all when the id is absent).  When the id occurs
in several categories, one product per visited matching category is
modified instead (see the counterexample). -/
theorem updateProduct_deleteProduct_single_id (t : CategoryNode)
    (pid : Int) (h : categoriesWithId t pid ≤ 1) :
    (∀ q, updateProduct t pid q = mapSetQuantity t pid q) ∧
    (∀ amt, deleteProduct t pid amt = mapDecrease t pid amt) := by
  induction t with
  | nil => exact ⟨fun q => rfl, fun amt => rfl⟩
  | node c ps l r ihl ihr =>
      rw [categoriesWithId] at h
      cases hf : findProduct ps pid with
      | some p =>
          rw [hf] at h
          have h' : categoriesWithId l pid + 1 + categoriesWithId r pid ≤ 1 := by
            simpa using h
          have hl0 : categoriesWithId l pid ≤ 1 := by omega
          have hr0 : categoriesWithId r pid = 0 := by omega
          constructor
          · intro q
            rw [updateProduct, hf, mapSetQuantity, (ihl hl0).1 q,
              mapSetQuantity_noop r pid hr0 q]
            simp [setQuantity, hf]
          · intro amt
            rw [deleteProduct, hf, mapDecrease, (ihl hl0).2 amt,
              mapDecrease_noop r pid hr0 amt]
      | none =>
          rw [hf] at h
          have h' : categoriesWithId l pid + 0 + categoriesWithId r pid ≤ 1 := by
            simpa using h
          have hl0 : categoriesWithId l pid ≤ 1 := by omega
          have hr0 : categoriesWithId r pid ≤ 1 := by omega
          constructor
          · intro q
            rw [updateProduct, hf, mapSetQuantity, (ihl hl0).1 q,
              (ihr hr0).1 q]
            simp [setQuantity, hf]
          · intro amt
            rw [deleteProduct, hf, mapDecrease, (ihl hl0).2 amt,
              (ihr hr0).2 amt]
            simp [decreaseInList, hf]

/-- Witness for the amended C10: on an index where id 1 occurs in a
single category, the tree-level update coincides with the pointwise
per-collection update. -/
theorem updateProduct_deleteProduct_single_id_witness :
    updateProduct (.node "B" [⟨1, "x", 5, "x"⟩] .nil .nil) 1 99 =
      mapSetQuantity (.node "B" [⟨1, "x", 5, "x"⟩] .nil .nil) 1 99 :=
  (updateProduct_deleteProduct_single_id
    (.node "B" [⟨1, "x", 5, "x"⟩] .nil .nil) 1 (by decide)).1 99

theorem mem_insertCategory (t : CategoryNode) (c x : String) :
    x ∈ inorderNames (insertCategory t c) ↔ x = c ∨ x ∈ inorderNames t := by
  induction t with
  | nil => simp [insertCategory, inorderNames]
  | node c0 ps l r ihl ihr =>
      by_cases h1 : c < c0
      · rw [insertCategory, if_pos h1]
        simp only [inorderNames, List.mem_append, List.mem_cons, ihl]
        tauto
      · by_cases h2 : c0 < c
        · rw [insertCategory, if_neg h1, if_pos h2]
          simp only [inorderNames, List.mem_append, List.mem_cons, ihr]
          tauto
        · have hc : c = c0 := le_antisymm (not_lt.mp h2) (not_lt.mp h1)
          rw [insertCategory, if_neg h1, if_neg h2]
          subst hc
          simp only [inorderNames, List.mem_append, List.mem_cons]
          tauto

theorem BST_insertCategory (t : CategoryNode) (c : String) (h : BST t) :
    BST (insertCategory t c) := by
  induction t with
  | nil =>
      rw [insertCategory, BST]
      exact ⟨by simp [inorderNames], by simp [inorderNames], trivial, trivial⟩
  | node c0 ps l r ihl ihr =>
      rw [BST] at h
      obtain ⟨hbl, hbr, hl, hr⟩ := h
      by_cases h1 : c < c0
      · rw [insertCategory, if_pos h1, BST]
        refine ⟨?_, hbr, ihl hl, hr⟩
        intro x hx
        rcases (mem_insertCategory l c x).mp hx with rfl | hx
        · exact h1
        · exact hbl x hx
      · by_cases h2 : c0 < c
        · rw [insertCategory, if_neg h1, if_pos h2, BST]
          refine ⟨hbl, ?_, hl, ihr hr⟩
          intro x hx
          rcases (mem_insertCategory r c x).mp hx with rfl | hx
          · exact h2
          · exact hbr x hx
        · rw [insertCategory, if_neg h1, if_neg h2, BST]
          exact ⟨hbl, hbr, hl, hr⟩

theorem sorted_inorderNames (t : CategoryNode) (h : BST t) :
    List.Sorted (fun a b => a < b) (inorderNames t) := by
  induction t with
  | nil => simp [inorderNames]
  | node c0 ps l r ihl ihr =>
      rw [BST] at h
      obtain ⟨hbl, hbr, hl, hr⟩ := h
      rw [inorderNames]
      show List.Pairwise (fun a b => a < b) (inorderNames l ++ c0 :: inorderNames r)
      rw [List.pairwise_append]
      refine ⟨ihl hl, ?_, ?_⟩
      · rw [List.pairwise_cons]
        exact ⟨hbr, ihr hr⟩
      · intro a ha b hb
        rcases List.mem_cons.mp hb with rfl | hb
        · exact hbl a ha
        · exact lt_trans (hbl a ha) (hbr b hb)

theorem insertCategory_of_mem (t : CategoryNode) (c : String) (h : BST t)
    (hc : c ∈ inorderNames t) : insertCategory t c = t := by
  induction t with
  | nil => simp [inorderNames] at hc
  | node c0 ps l r ihl ihr =>
      rw [BST] at h
      obtain ⟨hbl, hbr, hl, hr⟩ := h
      rw [inorderNames] at hc
      rcases List.mem_append.mp hc with hcl | hcr
      · have h1 : c < c0 := hbl c hcl
        rw [insertCategory, if_pos h1, ihl hl hcl]
      · rcases List.mem_cons.mp hcr with rfl | hcr
        · rw [insertCategory, if_neg (lt_irrefl c), if_neg (lt_irrefl c)]
        · have h2 : c0 < c := hbr c hcr
          rw [insertCategory, if_neg (asymm h2), if_pos h2, ihr hr hcr]

theorem BST_foldl_insertCategory (names : List String) :
    ∀ t, BST t → BST (List.foldl insertCategory t names) := by
  induction names with
  | nil => intro t h; exact h
  | cons n rest ih =>
      intro t h
      exact ih _ (BST_insertCategory t n h)

theorem mem_foldl_insertCategory (names : List String) :
    ∀ t x, x ∈ inorderNames (List.foldl insertCategory t names) ↔
      x ∈ inorderNames t ∨ x ∈ names := by
  induction names with
  | nil => intro t x; simp
  | cons n rest ih =>
      intro t x
      rw [List.foldl_cons, ih, mem_insertCategory]
      simp only [List.mem_cons]
      tauto

/-- C4: inserting any finite sequence of category names into the empty
index yields a tree whose in-order traversal (the key sequence of
displayCategories) is strictly ascending — hence duplicate-free — and
carries exactly the distinct inserted names; and inserting a name that
is already present returns the tree unchanged. -/
theorem insertCategory_inorder_sorted_distinct (names : List String) :
    List.Sorted (fun a b => a < b)
      ((displayCategories (List.foldl insertCategory .nil names)).map Prod.fst) ∧
    (∀ x, x ∈ (displayCategories
      (List.foldl insertCategory .nil names)).map Prod.fst ↔ x ∈ names) ∧
    ∀ c ∈ names, insertCategory (List.foldl insertCategory .nil names) c =
      List.foldl insertCategory .nil names := by
  have hb : BST (List.foldl insertCategory .nil names) :=
    BST_foldl_insertCategory names .nil trivial
  rw [inorderNames_displayCategories]
  refine ⟨sorted_inorderNames _ hb, ?_, ?_⟩
  · intro x
    rw [mem_foldl_insertCategory]
    simp [inorderNames]
  · intro c hc
    exact insertCategory_of_mem _ c hb
      ((mem_foldl_insertCategory names .nil c).mpr (Or.inr hc))

/-- Witness for C4: after inserting "Tools" then "Food", re-inserting
the already-present "Tools" returns the tree unchanged. -/
theorem insertCategory_inorder_sorted_distinct_witness :
    insertCategory (List.foldl insertCategory .nil ["Tools", "Food"]) "Tools" =
      List.foldl insertCategory .nil ["Tools", "Food"] :=
  (insertCategory_inorder_sorted_distinct ["Tools", "Food"]).2.2 "Tools" (by decide)

theorem mem_inorderNames_node (c0 : String) (ps : List Product)
    (l r : CategoryNode) (x : String) :
    x ∈ inorderNames (.node c0 ps l r) ↔
      x ∈ inorderNames l ∨ x = c0 ∨ x ∈ inorderNames r := by
  rw [inorderNames]
  simp

theorem leftmostCategory_mem_min (t : CategoryNode) :
    BST t → t ≠ .nil →
      leftmostCategory t ∈ inorderNames t ∧
        ∀ x ∈ inorderNames t, leftmostCategory t ≤ x := by
  induction t with
  | nil => intro _ hne; exact absurd rfl hne
  | node c0 ps l r ihl ihr =>
      intro h _
      rw [BST] at h
      obtain ⟨hbl, hbr, hl, hr⟩ := h
      cases l with
      | nil =>
          rw [leftmostCategory]
          constructor
          · rw [mem_inorderNames_node]
            exact Or.inr (Or.inl rfl)
          · intro x hx
            rcases (mem_inorderNames_node c0 ps .nil r x).mp hx with hx | rfl | hx
            · simp [inorderNames] at hx
            · exact le_refl x
            · exact le_of_lt (hbr x hx)
      | node cl psl ll rl =>
          rw [leftmostCategory]
          obtain ⟨hmem, hmin⟩ := ihl hl (by simp)
          constructor
          · rw [mem_inorderNames_node]
            exact Or.inl hmem
          · intro x hx
            rcases (mem_inorderNames_node c0 ps _ r x).mp hx with hx | rfl | hx
            · exact hmin x hx
            · exact le_of_lt (hbl _ hmem)
            · exact le_of_lt (lt_trans (hbl _ hmem) (hbr x hx))

theorem deleteCategory_node_def (c0 : String) (ps : List Product)
    (l r : CategoryNode) (category : String) :
    deleteCategory (.node c0 ps l r) category =
      if category < c0 then .node c0 ps (deleteCategory l category) r
      else if c0 < category then .node c0 ps l (deleteCategory r category)
      else
        match l, r with
        | .nil, _ => r
        | .node cl psl ll rl, .nil => .node cl psl ll rl
        | _, _ =>
            .node (leftmostCategory r) ps l
              (deleteCategory r (leftmostCategory r)) := by
  cases l <;> cases r <;> rfl

theorem mem_deleteCategory (t : CategoryNode) :
    BST t → ∀ c x, (x ∈ inorderNames (deleteCategory t c) ↔
      x ∈ inorderNames t ∧ x ≠ c) := by
  induction t with
  | nil =>
      intro _ c x
      simp [deleteCategory, inorderNames]
  | node c0 ps l r ihl ihr =>
      intro h c x
      rw [BST] at h
      obtain ⟨hbl, hbr, hl, hr⟩ := h
      by_cases h1 : c < c0
      · have f1 : c0 ≠ c := ne_of_gt h1
        have f2 : ∀ y ∈ inorderNames r, y ≠ c :=
          fun y hy => ne_of_gt (lt_trans h1 (hbr y hy))
        rw [deleteCategory_node_def, if_pos h1,
          mem_inorderNames_node c0 ps (deleteCategory l c) r x,
          mem_inorderNames_node c0 ps l r x, ihl hl c x]
        constructor
        · rintro (⟨hx, hne⟩ | rfl | hx)
          · exact ⟨Or.inl hx, hne⟩
          · exact ⟨Or.inr (Or.inl rfl), f1⟩
          · exact ⟨Or.inr (Or.inr hx), f2 x hx⟩
        · rintro ⟨hx | rfl | hx, hne⟩
          · exact Or.inl ⟨hx, hne⟩
          · exact Or.inr (Or.inl rfl)
          · exact Or.inr (Or.inr hx)
      · by_cases h2 : c0 < c
        · have f1 : c0 ≠ c := ne_of_lt h2
          have f2 : ∀ y ∈ inorderNames l, y ≠ c :=
            fun y hy => ne_of_lt (lt_trans (hbl y hy) h2)
          rw [deleteCategory_node_def, if_neg h1, if_pos h2,
            mem_inorderNames_node c0 ps l (deleteCategory r c) x,
            mem_inorderNames_node c0 ps l r x, ihr hr c x]
          constructor
          · rintro (hx | rfl | ⟨hx, hne⟩)
            · exact ⟨Or.inl hx, f2 x hx⟩
            · exact ⟨Or.inr (Or.inl rfl), f1⟩
            · exact ⟨Or.inr (Or.inr hx), hne⟩
          · rintro ⟨hx | rfl | hx, hne⟩
            · exact Or.inl hx
            · exact Or.inr (Or.inl rfl)
            · exact Or.inr (Or.inr ⟨hx, hne⟩)
        · have hc : c = c0 := le_antisymm (not_lt.mp h2) (not_lt.mp h1)
          subst hc
          cases l with
          | nil =>
              have hdel : deleteCategory (.node c ps .nil r) c = r := by
                rw [deleteCategory_node_def, if_neg h1, if_neg h2]
              rw [hdel, mem_inorderNames_node c ps .nil r x]
              constructor
              · intro hx
                exact ⟨Or.inr (Or.inr hx), ne_of_gt (hbr x hx)⟩
              · rintro ⟨hx | rfl | hx, hne⟩
                · simp [inorderNames] at hx
                · exact absurd rfl hne
                · exact hx
          | node cl psl ll rl =>
              cases r with
              | nil =>
                  have hdel : deleteCategory
                      (.node c ps (.node cl psl ll rl) .nil) c =
                      .node cl psl ll rl := by
                    rw [deleteCategory_node_def, if_neg h1, if_neg h2]
                  rw [hdel,
                    mem_inorderNames_node c ps (.node cl psl ll rl) .nil x]
                  constructor
                  · intro hx
                    exact ⟨Or.inl hx, ne_of_lt (hbl x hx)⟩
                  · rintro ⟨hx | rfl | hx, hne⟩
                    · exact hx
                    · exact absurd rfl hne
                    · simp [inorderNames] at hx
              | node cr psr lr rr =>
                  have hdel : deleteCategory (.node c ps (.node cl psl ll rl)
                      (.node cr psr lr rr)) c =
                      .node (leftmostCategory (.node cr psr lr rr)) ps
                        (.node cl psl ll rl)
                        (deleteCategory (.node cr psr lr rr)
                          (leftmostCategory (.node cr psr lr rr))) := by
                    rw [deleteCategory_node_def, if_neg h1, if_neg h2]
                  obtain ⟨hmem, hmin⟩ :=
                    leftmostCategory_mem_min (.node cr psr lr rr) hr (by simp)
                  have hmc : c < leftmostCategory (.node cr psr lr rr) :=
                    hbr _ hmem
                  rw [hdel,
                    mem_inorderNames_node (leftmostCategory (.node cr psr lr rr))
                      ps (.node cl psl ll rl)
                      (deleteCategory (.node cr psr lr rr)
                        (leftmostCategory (.node cr psr lr rr))) x,
                    mem_inorderNames_node c ps (.node cl psl ll rl)
                      (.node cr psr lr rr) x,
                    ihr hr (leftmostCategory (.node cr psr lr rr)) x]
                  constructor
                  · rintro (hx | rfl | ⟨hx, hne⟩)
                    · exact ⟨Or.inl hx, ne_of_lt (hbl x hx)⟩
                    · exact ⟨Or.inr (Or.inr hmem), ne_of_gt hmc⟩
                    · exact ⟨Or.inr (Or.inr hx), ne_of_gt (hbr x hx)⟩
                  · rintro ⟨hx | rfl | hx, hne⟩
                    · exact Or.inl hx
                    · exact absurd rfl hne
                    · by_cases hxm : x = leftmostCategory (.node cr psr lr rr)
                      · exact Or.inr (Or.inl hxm)
                      · exact Or.inr (Or.inr ⟨hx, hxm⟩)

theorem BST_deleteCategory (t : CategoryNode) :
    BST t → ∀ c, BST (deleteCategory t c) := by
  induction t with
  | nil => intro _ c; exact trivial
  | node c0 ps l r ihl ihr =>
      intro h c
      rw [BST] at h
      obtain ⟨hbl, hbr, hl, hr⟩ := h
      by_cases h1 : c < c0
      · rw [deleteCategory_node_def, if_pos h1, BST]
        refine ⟨?_, hbr, ihl hl c, hr⟩
        intro x hx
        exact hbl x ((mem_deleteCategory l hl c x).mp hx).1
      · by_cases h2 : c0 < c
        · rw [deleteCategory_node_def, if_neg h1, if_pos h2, BST]
          refine ⟨hbl, ?_, hl, ihr hr c⟩
          intro x hx
          exact hbr x ((mem_deleteCategory r hr c x).mp hx).1
        · have hc : c = c0 := le_antisymm (not_lt.mp h2) (not_lt.mp h1)
          subst hc
          cases l with
          | nil =>
              have hdel : deleteCategory (.node c ps .nil r) c = r := by
                rw [deleteCategory_node_def, if_neg h1, if_neg h2]
              rw [hdel]
              exact hr
          | node cl psl ll rl =>
              cases r with
              | nil =>
                  have hdel : deleteCategory
                      (.node c ps (.node cl psl ll rl) .nil) c =
                      .node cl psl ll rl := by
                    rw [deleteCategory_node_def, if_neg h1, if_neg h2]
                  rw [hdel]
                  exact hl
              | node cr psr lr rr =>
                  have hdel : deleteCategory (.node c ps (.node cl psl ll rl)
                      (.node cr psr lr rr)) c =
                      .node (leftmostCategory (.node cr psr lr rr)) ps
                        (.node cl psl ll rl)
                        (deleteCategory (.node cr psr lr rr)
                          (leftmostCategory (.node cr psr lr rr))) := by
                    rw [deleteCategory_node_def, if_neg h1, if_neg h2]
                  obtain ⟨hmem, hmin⟩ :=
                    leftmostCategory_mem_min (.node cr psr lr rr) hr (by simp)
                  have hmc : c < leftmostCategory (.node cr psr lr rr) :=
                    hbr _ hmem
                  rw [hdel, BST]
                  refine ⟨?_, ?_, hl, ihr hr _⟩
                  · intro x hx
                    exact lt_trans (hbl x hx) hmc
                  · intro x hx
                    obtain ⟨hxr, hxne⟩ :=
                      (mem_deleteCategory (.node cr psr lr rr) hr
                        (leftmostCategory (.node cr psr lr rr)) x).mp hx
                    exact lt_of_le_of_ne (hmin x hxr) (Ne.symm hxne)

theorem deleteCategory_absent (t : CategoryNode) :
    BST t → ∀ c, c ∉ inorderNames t → deleteCategory t c = t := by
  induction t with
  | nil => intro _ c _; rfl
  | node c0 ps l r ihl ihr =>
      intro h c hc
      rw [BST] at h
      obtain ⟨hbl, hbr, hl, hr⟩ := h
      rw [mem_inorderNames_node] at hc
      push_neg at hc
      obtain ⟨hcl, hcc, hcr⟩ := hc
      by_cases h1 : c < c0
      · rw [deleteCategory_node_def, if_pos h1, ihl hl c hcl]
      · by_cases h2 : c0 < c
        · rw [deleteCategory_node_def, if_neg h1, if_pos h2, ihr hr c hcr]
        · exact absurd (le_antisymm (not_lt.mp h2) (not_lt.mp h1)) hcc

theorem findCategory_isSome_iff (t : CategoryNode) :
    BST t → ∀ x, ((findCategory t x).isSome = true ↔ x ∈ inorderNames t) := by
  induction t with
  | nil =>
      intro _ x
      simp [findCategory, inorderNames]
  | node c0 ps l r ihl ihr =>
      intro h x
      rw [BST] at h
      obtain ⟨hbl, hbr, hl, hr⟩ := h
      rw [mem_inorderNames_node]
      by_cases he : x = c0
      · subst he
        rw [findCategory, if_pos rfl]
        simp
      · by_cases hlt : x < c0
        · rw [findCategory, if_neg he, if_pos hlt, ihl hl x]
          constructor
          · exact fun hx => Or.inl hx
          · rintro (hx | rfl | hx)
            · exact hx
            · exact absurd rfl he
            · exact absurd hlt (asymm (hbr x hx))
        · rw [findCategory, if_neg he, if_neg hlt, ihr hr x]
          constructor
          · exact fun hx => Or.inr (Or.inr hx)
          · rintro (hx | rfl | hx)
            · exact absurd (hbl x hx) hlt
            · exact absurd rfl he
            · exact hx

/-- C5 (amended): on a BST index, delete removes exactly the requested
NAME: a subsequent find for it fails, every other name is findable
afterwards iff it was findable before, the BST ordering invariant is
preserved, and deleting an absent name is a no-op.  (The deleted
category's PRODUCT LIST is not removed in the two-child case: it
survives under the in-order successor's name, whose own products are
discarded — see the counterexample.) -/
theorem deleteCategory_spec (t : CategoryNode) (c : String) (h : BST t) :
    BST (deleteCategory t c) ∧
    findCategory (deleteCategory t c) c = none ∧
    (∀ x, x ≠ c → ((findCategory (deleteCategory t c) x).isSome = true ↔
      (findCategory t x).isSome = true)) ∧
    (findCategory t c = none → deleteCategory t c = t) := by
  have hbd := BST_deleteCategory t h c
  refine ⟨hbd, ?_, ?_, ?_⟩
  · cases hf : findCategory (deleteCategory t c) c with
    | none => rfl
    | some v =>
        have hs : (findCategory (deleteCategory t c) c).isSome = true := by
          rw [hf]; rfl
        rw [findCategory_isSome_iff _ hbd c, mem_deleteCategory t h c c] at hs
        exact absurd rfl hs.2
  · intro x hx
    rw [findCategory_isSome_iff _ hbd x, findCategory_isSome_iff _ h x,
      mem_deleteCategory t h c x]
    simp [hx]
  · intro hf
    apply deleteCategory_absent t h c
    intro hc
    rw [← findCategory_isSome_iff t h c] at hc
    rw [hf] at hc
    simp at hc

/-- C5 (counterexample): deleting "B" (products [hammer]) from the tree
with left child "A" and right child "C" (products [saw]) — the two-child
case — produces a node NAMED "C" that still carries B's product list
[hammer], while C's own products [saw] are discarded with the physical
successor node.  The deleted category's products are not removed from
the index, so the claim's "removes the category (and its products)" is
false. -/
theorem deleteCategory_products_counterexample :
    deleteCategory (.node "B" [⟨1, "hammer", 1, "hammer"⟩]
        (.node "A" [] .nil .nil)
        (.node "C" [⟨2, "saw", 2, "saw"⟩] .nil .nil)) "B" =
      .node "C" [⟨1, "hammer", 1, "hammer"⟩]
        (.node "A" [] .nil .nil) .nil ∧
    ([⟨1, "hammer", 1, "hammer"⟩] : List Product) ≠
      [⟨2, "saw", 2, "saw"⟩] := by
  have hB : ¬ ("B" : String) < "B" := lt_irrefl _
  have hC : ¬ ("C" : String) < "C" := lt_irrefl _
  constructor
  · rw [deleteCategory_node_def, if_neg hB, if_neg hB]
    show CategoryNode.node
        (leftmostCategory (.node "C" [⟨2, "saw", 2, "saw"⟩] .nil .nil))
        [⟨1, "hammer", 1, "hammer"⟩] (.node "A" [] .nil .nil)
        (deleteCategory (.node "C" [⟨2, "saw", 2, "saw"⟩] .nil .nil)
          (leftmostCategory (.node "C" [⟨2, "saw", 2, "saw"⟩] .nil .nil))) = _
    have hlm : leftmostCategory
        (.node "C" [⟨2, "saw", 2, "saw"⟩] .nil .nil) = "C" := rfl
    rw [hlm, deleteCategory_node_def, if_neg hC, if_neg hC]
  · decide

/-- Witness for the amended C5: on the concrete BST with categories
"A", "B", "C", finding "B" after deleting "B" fails. -/
theorem deleteCategory_spec_witness :
    findCategory (deleteCategory (.node "B" [⟨1, "hammer", 1, "hammer"⟩]
      (.node "A" [] .nil .nil)
      (.node "C" [⟨2, "saw", 2, "saw"⟩] .nil .nil)) "B") "B" = none := by
  have hAB : ("A" : String) < "B" := String.lt_iff_toList_lt.mpr (by decide)
  have hBC : ("B" : String) < "C" := String.lt_iff_toList_lt.mpr (by decide)
  have hbst : BST (.node "B" [⟨1, "hammer", 1, "hammer"⟩]
      (.node "A" [] .nil .nil)
      (.node "C" [⟨2, "saw", 2, "saw"⟩] .nil .nil)) := by
    rw [BST]
    refine ⟨?_, ?_, ?_, ?_⟩
    · intro x hx
      have hxA : x = "A" := by simpa [inorderNames] using hx
      subst hxA
      exact hAB
    · intro x hx
      have hxC : x = "C" := by simpa [inorderNames] using hx
      subst hxC
      exact hBC
    · rw [BST]
      exact ⟨by simp [inorderNames], by simp [inorderNames], trivial, trivial⟩
    · rw [BST]
      exact ⟨by simp [inorderNames], by simp [inorderNames], trivial, trivial⟩
  exact (deleteCategory_spec (.node "B" [⟨1, "hammer", 1, "hammer"⟩]
    (.node "A" [] .nil .nil)
    (.node "C" [⟨2, "saw", 2, "saw"⟩] .nil .nil)) "B" hbst).2.1
